import Mathlib

/-!
Verification development for the two hand-rolled concurrency primitives of the
repository: the manual atomically reference-counted handle `MyArc`
(`concurrency/src/bin/atomic_arc.rs`) and the test-and-test-and-set spinlock
`SpinLock` (`concurrency/src/bin/atomic_spinlock.rs`).

Atomic read-modify-write operations are modelled as atomic steps of an
interleaving semantics; memory orderings are recorded on the event traces the
operations emit (a sequentially consistent interleaving model cannot observe
weak-memory reordering, but it can check which ordering each access uses and
where the fence sits relative to destruction).
-/

namespace RustConc

/-- Memory orderings, mirroring `std::sync::atomic::Ordering` as used by the
two source files. -/
inductive MemOrd where
  | relaxed
  | acquire
  | release
deriving DecidableEq

/-- One atomic access or fence performed by the source, with its ordering. -/
inductive AtomicEv where
  | load (ord : MemOrd) (val : Bool)
  | store (ord : MemOrd) (val : Bool)
  | rmwAdd (ord : MemOrd)
  | rmwSub (ord : MemOrd)
  | fence (ord : MemOrd)
  | casBool (expected newVal : Bool) (okOrd failOrd : MemOrd) (success : Bool)
  | freeBlock
deriving DecidableEq

/-- Number of `usize` values, that is 2 ^ 64: the `AtomicUsize` reference
count wraps modulo this. -/
def usizeSize : Nat := 18446744073709551616

/-- Wrapping `fetch_add(1)` on an `AtomicUsize`, returning the new value. -/
def fetchAddOne (x : Nat) : Nat := (x + 1) % usizeSize

/-- Wrapping `fetch_sub(1)` on an `AtomicUsize`, returning the new value. -/
def fetchSubOne (x : Nat) : Nat := (x + (usizeSize - 1)) % usizeSize

/-- State of one `ArcInner<T>` control block together with observation
fields: `rc` and `data` mirror the two fields of `ArcInner`; `handles` counts
the live `MyArc` handles referencing the block (ghost); `allocated` records
that the `Box` has not been reclaimed; `dataDropped` records that the payload
destructor has run (the `DROPPED` flag of the `Trap` test type). -/
structure ArcState (T : Type) where
  rc : Nat
  data : T
  handles : Nat
  allocated : Bool
  dataDropped : Bool
deriving DecidableEq

/-- `MyArc::new`: a fresh control block with `rc = 1` holding the value; the
creating handle is the single live handle. -/
def myArcNew {T : Type} (v : T) : ArcState T :=
  { rc := 1, data := v, handles := 1, allocated := true, dataDropped := false }

/-- `Clone for MyArc`: `inner.rc.fetch_add(1, Ordering::Relaxed)`; one more
live handle aliases the block. -/
def myArcClone {T : Type} (s : ArcState T) : ArcState T :=
  { s with rc := fetchAddOne s.rc, handles := s.handles + 1 }

/-- `Deref for MyArc`: `&inner.data`. -/
def myArcDeref {T : Type} (s : ArcState T) : T := s.data

/-- `Drop for MyArc`: `inner.rc.fetch_sub(1, Ordering::Release)`; when the
value observed before the decrement is not 1 the function returns at once;
otherwise an acquire fence is issued and `Box::from_raw` reclaims the block,
running the payload destructor. -/
def myArcDrop {T : Type} (s : ArcState T) : ArcState T :=
  let old := s.rc
  let s1 := { s with rc := fetchSubOne s.rc, handles := s.handles - 1 }
  if old ≠ 1 then s1
  else { s1 with allocated := false, dataDropped := true }

/-- Atomic events of `Clone for MyArc`: the single relaxed increment. -/
def cloneEvents : List AtomicEv := [AtomicEv.rmwAdd MemOrd.relaxed]

/-- Atomic events of `Drop for MyArc`: the release decrement, then — only
when the pre-decrement count was 1 — the acquire fence followed by the
reclamation of the block. -/
def dropEvents {T : Type} (s : ArcState T) : List AtomicEv :=
  if s.rc ≠ 1 then [AtomicEv.rmwSub MemOrd.release]
  else [AtomicEv.rmwSub MemOrd.release, AtomicEv.fence MemOrd.acquire,
        AtomicEv.freeBlock]

/-- Atomic events of `Drop for SpinLockGuard`:
`self.lock.locked.store(false, Ordering::Release)`. -/
def guardDropEvents : List AtomicEv := [AtomicEv.store MemOrd.release false]

/-- Operations a holder of a live handle can perform on the shared block. -/
inductive ArcOp where
  | clone
  | drop
deriving DecidableEq

/-- Effect of one handle operation on the shared control block. -/
def execOp {T : Type} (s : ArcState T) : ArcOp → ArcState T
  | ArcOp.clone => myArcClone s
  | ArcOp.drop => myArcDrop s

/-- Folding a sequence of handle operations over the block. Atomicity of the
counter updates makes any thread interleaving equivalent to some such
sequence. -/
def execTrace {T : Type} (s : ArcState T) : List ArcOp → ArcState T
  | [] => s
  | op :: rest => execTrace (execOp s op) rest

/-- A trace is valid when every operation is performed by a holder of a live
handle: at least one handle is live before each operation. -/
def validTrace {T : Type} (s : ArcState T) : List ArcOp → Bool
  | [] => true
  | op :: rest => decide (0 < s.handles) && validTrace (execOp s op) rest

/-- Invariant tying the atomic counter to the handle count: while any handle
is live the counter equals the number of live handles (so it is never
observed at zero), the block is allocated and the payload destructor has not
run; once no handle is live the block has been reclaimed and the destructor
has run — it ran exactly at the final release. -/
def ArcInv {T : Type} (s : ArcState T) : Prop :=
  s.handles < usizeSize ∧
  (0 < s.handles → s.rc = s.handles ∧ s.allocated = true ∧ s.dataDropped = false) ∧
  (s.handles = 0 → s.rc = 0 ∧ s.allocated = false ∧ s.dataDropped = true)

/-- The `MyArc` handle itself: a non-null address of the control block. -/
structure MyArc where
  ptr : Nat
deriving DecidableEq

/-- `Clone for MyArc` returns `MyArc { ptr: self.ptr }`: a handle carrying
the same block address. -/
def cloneHandle (h : MyArc) : MyArc := { ptr := h.ptr }

/-- Bump allocator modelling the host heap: `Box::new` places the block at
the next fresh address. Addresses start at 1, reflecting the host guarantee
that a live `Box` allocation never sits at the null address 0. -/
structure HostAlloc where
  allocCount : Nat
deriving DecidableEq

/-- `Box::into_raw(Box::new(inner))`: the raw address of the fresh block. -/
def boxIntoRaw (a : HostAlloc) : Nat × HostAlloc :=
  (a.allocCount + 1, { allocCount := a.allocCount + 1 })

/-- `NonNull::new`: `some` exactly on nonzero addresses. -/
def nonNullNew (p : Nat) : Option Nat :=
  if p = 0 then none else some p

/-- Pointer-level `MyArc::new`: allocate the block and wrap the raw pointer
with `NonNull::new(...).unwrap()`; a `none` result models the `unwrap`
panic branch. -/
def myArcNewPtr (a : HostAlloc) : Option MyArc × HostAlloc :=
  let p := boxIntoRaw a
  ((nonNullNew p.1).map (fun q => { ptr := q }), p.2)

/-- The spinlock: the atomic flag and the guarded value held inline
(`AtomicBool` plus `UnsafeCell<T>`). -/
structure SpinLock (T : Type) where
  locked : Bool
  data : T
deriving DecidableEq

/-- `SpinLock::new`: `locked = false`, value stored inline. -/
def SpinLock.new {T : Type} (v : T) : SpinLock T :=
  { locked := false, data := v }

/-- The successful branch of
`compare_exchange_weak(false, true, Acquire, Relaxed)`: possible exactly in
the unlocked state; a spurious or contended failure leaves the state
unchanged and is a stutter. -/
def casAcquire {T : Type} (s : SpinLock T) : Option (SpinLock T) :=
  if s.locked then none else some { s with locked := true }

/-- `Drop for SpinLockGuard`: `locked.store(false, Ordering::Release)`. -/
def guardDrop {T : Type} (s : SpinLock T) : SpinLock T :=
  { s with locked := false }

/-- `Deref for SpinLockGuard`: reading the guarded value. -/
def guardDeref {T : Type} (s : SpinLock T) : T := s.data

/-- `DerefMut for SpinLockGuard`: writing through the guard. -/
def guardWrite {T : Type} (s : SpinLock T) (v : T) : SpinLock T :=
  { s with data := v }

/-- One call to `SpinLock::lock`, run against an oracle giving the outcome of
each atomic access (for a load: the value read; for a compare-and-swap:
whether the weak CAS succeeded), with fuel bounding the number of loop
iterations. Returns the emitted event trace and whether the lock was
acquired. Shape of the source loop: spin on a relaxed load while it reads
`true`; on reading `false` attempt `compare_exchange_weak(false, true,
Acquire, Relaxed)`; return on success, otherwise start over. -/
def lockRun (orc : Nat → Bool) : Nat → Nat → List AtomicEv × Bool
  | 0, _ => ([], false)
  | fuel + 1, idx =>
    if orc idx then
      let r := lockRun orc fuel (idx + 1)
      (AtomicEv.load MemOrd.relaxed true :: r.1, r.2)
    else if orc (idx + 1) then
      ([AtomicEv.load MemOrd.relaxed false,
        AtomicEv.casBool false true MemOrd.acquire MemOrd.relaxed true], true)
    else
      let r := lockRun orc fuel (idx + 2)
      (AtomicEv.load MemOrd.relaxed false ::
        AtomicEv.casBool false true MemOrd.acquire MemOrd.relaxed false :: r.1,
       r.2)

/-- Traces allowed by the specified test-and-test-and-set algorithm, written
from the spec's step description: step 1 spins on relaxed loads while they
read `true`; step 2 attempts the CAS from `false` to `true` with acquire
ordering on success and relaxed on failure, right after a relaxed load read
`false`; step 3 returns to step 1 after a failed CAS; step 4 acquires on
success. The boolean records acquisition; `nil` covers an exhausted fuel
budget mid-spin. -/
inductive TTASSpec : List AtomicEv → Bool → Prop where
  | nil : TTASSpec [] false
  | spin (evs : List AtomicEv) (b : Bool) : TTASSpec evs b →
      TTASSpec (AtomicEv.load MemOrd.relaxed true :: evs) b
  | casWin : TTASSpec
      [AtomicEv.load MemOrd.relaxed false,
       AtomicEv.casBool false true MemOrd.acquire MemOrd.relaxed true] true
  | casLose (evs : List AtomicEv) (b : Bool) : TTASSpec evs b →
      TTASSpec (AtomicEv.load MemOrd.relaxed false ::
        AtomicEv.casBool false true MemOrd.acquire MemOrd.relaxed false :: evs) b

/-- Two's-complement wrapping of an unbounded integer into `i32`
(the constants are 2 ^ 31 and 2 ^ 32). -/
def wrap32 (x : Int) : Int := (x + 2147483648) % 4294967296 - 2147483648

/-- Phase of one worker thread of `test_spinlock_concurrency`: `idle`
(outside the critical section), `locked` (its CAS succeeded, about to read
the counter), `loaded r` (read counter value `r` through the guard),
`stored` (wrote `r + 1`, about to drop the guard). -/
inductive TPhase where
  | idle
  | locked
  | loaded (r : Int)
  | stored
deriving DecidableEq

/-- One worker thread: remaining increments and current phase. -/
structure TState where
  remaining : Nat
  phase : TPhase
deriving DecidableEq

/-- Shared state: the spinlock flag, the guarded `i32` counter, and the
thread states. -/
structure Sys (n : Nat) where
  locked : Bool
  data : Int
  threads : Fin n → TState

/-- Interleaved small-step semantics of `n` threads each repeating
`let mut guard = l.lock(); *guard += 1;` — a successful
`compare_exchange_weak(false, true, Acquire, Relaxed)`, the read and the
write of the counter through the guard, and the guard drop storing `false`
with release ordering. Relaxed spin loads and failed CAS attempts do not
change the shared state and are elided as stutter steps. -/
inductive Step {n : Nat} : Sys n → Sys n → Prop where
  | acquire (s : Sys n) (i : Fin n) :
      (s.threads i).phase = TPhase.idle → 0 < (s.threads i).remaining →
      s.locked = false →
      Step s { locked := true, data := s.data,
               threads := Function.update s.threads i ⟨(s.threads i).remaining, TPhase.locked⟩ }
  | read (s : Sys n) (i : Fin n) :
      (s.threads i).phase = TPhase.locked →
      Step s { s with threads := Function.update s.threads i ⟨(s.threads i).remaining, TPhase.loaded s.data⟩ }
  | write (s : Sys n) (i : Fin n) (r : Int) :
      (s.threads i).phase = TPhase.loaded r →
      Step s { s with data := wrap32 (r + 1), threads := Function.update s.threads i ⟨(s.threads i).remaining, TPhase.stored⟩ }
  | unlock (s : Sys n) (i : Fin n) :
      (s.threads i).phase = TPhase.stored →
      Step s { locked := false, data := s.data,
               threads := Function.update s.threads i ⟨(s.threads i).remaining - 1, TPhase.idle⟩ }

/-- Starting state: lock free, counter zero, each of the `n` threads with
`k` increments to perform. -/
def initSys (n k : Nat) : Sys n :=
  { locked := false, data := 0, threads := fun _ => ⟨k, TPhase.idle⟩ }

/-- Reachability under any interleaving. -/
def Reach {n : Nat} : Sys n → Sys n → Prop := Relation.ReflTransGen Step

/-- A state where every thread has finished all of its increments. -/
def finalSys {n : Nat} (s : Sys n) : Prop :=
  ∀ i, (s.threads i).phase = TPhase.idle ∧ (s.threads i).remaining = 0

/-- Completed increments of one thread toward its quota `k`; a thread in
`stored` phase has already written its current increment. -/
def prog (k : Nat) (t : TState) : Nat :=
  (k - t.remaining) + (if t.phase = TPhase.stored then 1 else 0)

/-- Inductive invariant of the guarded counter system: remaining quotas are
bounded, non-idle threads still have work, mutual exclusion holds (at most
one non-idle thread, none while the flag is clear), a loaded register holds
the current counter, and the counter is the wrapped sum of all completed
increments. -/
def SysInv (k : Nat) {n : Nat} (s : Sys n) : Prop :=
  (∀ i, (s.threads i).remaining ≤ k) ∧
  (∀ i, (s.threads i).phase ≠ TPhase.idle → 0 < (s.threads i).remaining) ∧
  (∀ i j, (s.threads i).phase ≠ TPhase.idle →
    (s.threads j).phase ≠ TPhase.idle → i = j) ∧
  (s.locked = false → ∀ i, (s.threads i).phase = TPhase.idle) ∧
  (∀ i r, (s.threads i).phase = TPhase.loaded r → r = s.data) ∧
  s.data = wrap32 (Finset.univ.sum fun i => (prog k (s.threads i) : Int))

/-- State of the single-thread sequential run after `j` complete lock /
increment / unlock cycles out of a quota of `k`. -/
def midSeq (k j : Nat) : Sys 1 :=
  { locked := false, data := wrap32 j, threads := fun _ => ⟨k - j, TPhase.idle⟩ }

/-- Oracle under which the flag reads busy once and the following CAS wins. -/
def orcW : Nat → Bool := fun i => i != 1

/-- Constant-true oracle: the flag always reads `true`, as when another
holder never releases the lock. -/
def busyOracle : Nat → Bool := fun _ => true

/-! ### Arithmetic helpers -/

theorem fetchSubOne_eq (x : Nat) (h0 : 0 < x) (h1 : x < usizeSize) :
    fetchSubOne x = x - 1 := by
  unfold fetchSubOne usizeSize at *
  omega

theorem fetchAddOne_eq (x : Nat) (h1 : x + 1 < usizeSize) :
    fetchAddOne x = x + 1 := by
  unfold fetchAddOne usizeSize at *
  omega

/-! ### Claims about the reference-counted handle -/

/-- C1: `Drop for MyArc` decrements `strong_count` by exactly one; the block
is destroyed and the payload destructor runs if and only if the pre-decrement
value was exactly 1, i.e. exactly when this final release brings the logical
count to zero; when the pre-decrement value was greater than 1 nothing else
changes; the event trace is the release decrement, followed by the acquire
fence and the reclamation only in the final-release case. -/
theorem myArcDrop_last_release_frees {T : Type} (s : ArcState T)
    (h1 : 0 < s.rc) (h2 : s.rc < usizeSize) :
    (myArcDrop s).rc = s.rc - 1 ∧
    (myArcDrop s).handles = s.handles - 1 ∧
    (s.allocated = true → ((myArcDrop s).allocated = false ↔ s.rc - 1 = 0)) ∧
    (s.dataDropped = false → ((myArcDrop s).dataDropped = true ↔ s.rc = 1)) ∧
    (1 < s.rc → (myArcDrop s).data = s.data ∧
      (myArcDrop s).allocated = s.allocated ∧
      (myArcDrop s).dataDropped = s.dataDropped) ∧
    (1 < s.rc → dropEvents s = [AtomicEv.rmwSub MemOrd.release]) ∧
    (s.rc = 1 → dropEvents s = [AtomicEv.rmwSub MemOrd.release,
      AtomicEv.fence MemOrd.acquire, AtomicEv.freeBlock]) := by
  have hsub := fetchSubOne_eq s.rc h1 h2
  have hz : fetchSubOne 1 = 0 := by unfold fetchSubOne usizeSize; omega
  by_cases hc : s.rc = 1
  · refine ⟨?_, ?_, ?_, ?_, ?_, ?_, ?_⟩
    · simp [myArcDrop, hc, hz]
    · simp [myArcDrop, hc]
    · intro _; simp [myArcDrop, hc]
    · intro _; simp [myArcDrop, hc]
    · intro hgt; omega
    · intro hgt; omega
    · intro _; simp [dropEvents, hc]
  · refine ⟨?_, ?_, ?_, ?_, ?_, ?_, ?_⟩
    · simp [myArcDrop, hc, hsub]
    · simp [myArcDrop, hc]
    · intro ha
      rw [show (myArcDrop s).allocated = s.allocated by simp [myArcDrop, hc], ha]
      simp
      omega
    · intro hd
      rw [show (myArcDrop s).dataDropped = s.dataDropped by simp [myArcDrop, hc], hd]
      simp [hc]
    · intro _
      exact ⟨by simp [myArcDrop, hc], by simp [myArcDrop, hc], by simp [myArcDrop, hc]⟩
    · intro _; simp [dropEvents, hc]
    · intro h1x; exact absurd h1x hc

/-- Witness for C1 at a concrete block with two live handles. -/
theorem myArcDrop_last_release_frees_witness :
    (myArcDrop ({ rc := 2, data := 7, handles := 2, allocated := true, dataDropped := false } : ArcState Nat)).rc = 2 - 1 :=
  (myArcDrop_last_release_frees _ (by decide) (by decide)).1

/-- C6: `Clone for MyArc` atomically increments `strong_count` by exactly one
using relaxed ordering, leaves the payload in place, returns a handle with
the same block pointer (so accessing either handle reaches the same payload),
and is a total operation: it always succeeds and checks no upper bound. -/
theorem myArcClone_increments_aliases {T : Type} (s : ArcState T) (h : MyArc)
    (hroom : s.rc + 1 < usizeSize) :
    (myArcClone s).rc = s.rc + 1 ∧
    (myArcClone s).handles = s.handles + 1 ∧
    (myArcClone s).data = s.data ∧
    (myArcClone s).allocated = s.allocated ∧
    cloneHandle h = h ∧
    cloneEvents = [AtomicEv.rmwAdd MemOrd.relaxed] :=
  ⟨fetchAddOne_eq s.rc hroom, rfl, rfl, rfl, rfl, rfl⟩

/-- Witness for C6 at a freshly created block. -/
theorem myArcClone_increments_aliases_witness :
    (myArcClone ({ rc := 1, data := 7, handles := 1, allocated := true, dataDropped := false } : ArcState Nat)).rc = 1 + 1 :=
  (myArcClone_increments_aliases _ { ptr := 1 } (by decide)).1

/-- C7: `MyArc::new` builds a fresh control block with `strong_count = 1` and
payload equal to the given value, owned by the single new handle, and `Deref`
on that handle returns exactly that payload. -/
theorem myArcNew_fresh_block {T : Type} (v : T) :
    (myArcNew v).rc = 1 ∧ (myArcNew v).data = v ∧ (myArcNew v).handles = 1 ∧
    (myArcNew v).allocated = true ∧ (myArcNew v).dataDropped = false ∧
    myArcDeref (myArcNew v) = v :=
  ⟨rfl, rfl, rfl, rfl, rfl, rfl⟩

/-- C10: the pointer produced by `Box::into_raw` for the freshly allocated
control block is never null, so the `unwrap` after `NonNull::new` in
`MyArc::new` never takes the panic branch: for every allocator state the
checked constructor returns `some` handle holding a nonzero block address. -/
theorem myArcNewPtr_nonnull (a : HostAlloc) :
    (myArcNewPtr a).1 = some { ptr := a.allocCount + 1 } ∧
    a.allocCount + 1 ≠ 0 := by
  constructor
  · simp [myArcNewPtr, boxIntoRaw, nonNullNew]
  · omega

/-- Any single valid operation by a live-handle holder preserves the
counter/handle invariant (with room below the wrap point for a clone). -/
theorem arcStep_inv {T : Type} (s : ArcState T) (op : ArcOp) (h : ArcInv s)
    (hlive : 0 < s.handles) (hroom : s.handles + 1 < usizeSize) :
    ArcInv (execOp s op) := by
  obtain ⟨hbound, hpos, hzero⟩ := h
  obtain ⟨hrc, halloc, hdrop⟩ := hpos hlive
  cases op with
  | clone =>
    have hadd : fetchAddOne s.rc = s.rc + 1 := fetchAddOne_eq s.rc (by omega)
    refine ⟨?_, fun _ => ⟨?_, ?_, ?_⟩, fun hz => ?_⟩
    · show s.handles + 1 < usizeSize
      omega
    · show fetchAddOne s.rc = s.handles + 1
      rw [hadd, hrc]
    · exact halloc
    · exact hdrop
    · exact absurd hz (by simp [execOp, myArcClone])
  | drop =>
    have hrcpos : 0 < s.rc := by omega
    have hrclt : s.rc < usizeSize := by omega
    have hsub : fetchSubOne s.rc = s.rc - 1 := fetchSubOne_eq s.rc hrcpos hrclt
    by_cases hone : s.rc = 1
    · have hh1 : s.handles = 1 := by omega
      have hred : execOp s ArcOp.drop =
          { s with rc := fetchSubOne s.rc, handles := s.handles - 1,
                   allocated := false, dataDropped := true } := by
        simp [execOp, myArcDrop, hone]
      rw [hred]
      refine ⟨?_, fun hp => ?_, fun _ => ⟨?_, rfl, rfl⟩⟩
      · show s.handles - 1 < usizeSize
        omega
      · have hp2 : 0 < s.handles - 1 := hp
        omega
      · show fetchSubOne s.rc = 0
        omega
    · have hh2 : 2 ≤ s.handles := by omega
      have hred : execOp s ArcOp.drop =
          { s with rc := fetchSubOne s.rc, handles := s.handles - 1 } := by
        simp [execOp, myArcDrop, hone]
      rw [hred]
      refine ⟨?_, fun _ => ⟨?_, halloc, hdrop⟩, fun hz => ?_⟩
      · show s.handles - 1 < usizeSize
        omega
      · show fetchSubOne s.rc = s.handles - 1
        omega
      · have hz2 : s.handles - 1 = 0 := hz
        omega

/-- One operation creates at most one handle. -/
theorem execOp_handles_le {T : Type} (s : ArcState T) (op : ArcOp) :
    (execOp s op).handles ≤ s.handles + 1 := by
  cases op with
  | clone =>
    show (myArcClone s).handles ≤ s.handles + 1
    simp [myArcClone]
  | drop =>
    show (myArcDrop s).handles ≤ s.handles + 1
    have hh : (myArcDrop s).handles = s.handles - 1 := by
      by_cases hone : s.rc = 1
      · simp [myArcDrop, hone]
      · simp [myArcDrop, hone]
    omega

/-- The invariant holds after any valid operation sequence that stays below
the wrap point of the counter. -/
theorem execTrace_inv {T : Type} :
    ∀ (ops : List ArcOp) (s : ArcState T), ArcInv s →
      s.handles + ops.length < usizeSize → validTrace s ops = true →
      ArcInv (execTrace s ops) := by
  intro ops
  induction ops with
  | nil => intro s h _ _; exact h
  | cons op rest ih =>
    intro s h hlen hval
    simp only [validTrace, Bool.and_eq_true, decide_eq_true_eq] at hval
    obtain ⟨hlive, hval2⟩ := hval
    have hroom : s.handles + 1 < usizeSize := by
      have h2 := hlen
      simp [List.length_cons] at h2
      omega
    have hstep : ArcInv (execOp s op) := arcStep_inv s op h hlive hroom
    have hlen2 : (execOp s op).handles + rest.length < usizeSize := by
      have hle := execOp_handles_le s op
      have h2 := hlen
      simp [List.length_cons] at h2
      omega
    exact ih (execOp s op) hstep hlen2 hval2

/-- C2: exactly-once destruction: along every valid operation sequence
started by `MyArc::new` (each step performed by a holder of a live handle,
total length below the wrap point of the counter), the counter always equals
the number of live handles — it is never observed at zero while a handle is
live — the block stays allocated and the payload destructor has not run until
the last handle is dropped, and after the final release the destructor has
run exactly once. In the concrete `Trap` scenario (one handle plus one
clone), `DROPPED` is false while either handle is live and true after both
drops. -/
theorem arc_exactly_once_destruction :
    (∀ {T : Type} (v : T) (ops : List ArcOp), ops.length + 1 < usizeSize →
      validTrace (myArcNew v) ops = true →
      ArcInv (execTrace (myArcNew v) ops)) ∧
    (execTrace (myArcNew ()) [ArcOp.clone]).dataDropped = false ∧
    (execTrace (myArcNew ()) [ArcOp.clone, ArcOp.drop]).dataDropped = false ∧
    (execTrace (myArcNew ()) [ArcOp.clone, ArcOp.drop, ArcOp.drop]).dataDropped
      = true := by
  refine ⟨?_, by decide, by decide, by decide⟩
  intro T v ops hlen hval
  have hinv : ArcInv (myArcNew v) := by
    refine ⟨by norm_num [myArcNew, usizeSize], fun _ => ⟨rfl, rfl, rfl⟩,
      fun hz => ?_⟩
    simp [myArcNew] at hz
  have hlen2 : (myArcNew v).handles + ops.length < usizeSize := by
    show 1 + ops.length < usizeSize
    omega
  exact execTrace_inv ops (myArcNew v) hinv hlen2 hval

/-- Witness for C2: the create / clone / drop / drop scenario. -/
theorem arc_exactly_once_destruction_witness :
    ArcInv (execTrace (myArcNew (0 : Nat)) [ArcOp.clone, ArcOp.drop, ArcOp.drop]) :=
  arc_exactly_once_destruction.1 0 [ArcOp.clone, ArcOp.drop, ArcOp.drop]
    (by decide) (by decide)

/-! ### Claims about the lock algorithm -/

/-- Every run of the lock loop produces a trace of the specified
test-and-test-and-set shape. -/
theorem lockRun_ttas (orc : Nat → Bool) :
    ∀ (fuel idx : Nat),
      TTASSpec (lockRun orc fuel idx).1 (lockRun orc fuel idx).2 := by
  intro fuel
  induction fuel with
  | zero => intro idx; exact TTASSpec.nil
  | succ n ih =>
    intro idx
    by_cases h1 : orc idx = true
    · simp only [lockRun, h1, if_true]
      exact TTASSpec.spin _ _ (ih (idx + 1))
    · by_cases h2 : orc (idx + 1) = true
      · simp only [lockRun, h1, h2, if_true, if_false]
        simp [h1]
        exact TTASSpec.casWin
      · simp only [lockRun, h1, h2, if_false]
        simp [h1, h2]
        exact TTASSpec.casLose _ _ (ih (idx + 2))

/-- In an acquiring trace of the specified algorithm the final event is the
successful CAS. -/
theorem ttas_last {evs : List AtomicEv} {b : Bool} (h : TTASSpec evs b) :
    b = true → evs.getLast? =
      some (AtomicEv.casBool false true MemOrd.acquire MemOrd.relaxed true) := by
  induction h with
  | nil => intro hb; cases hb
  | spin evs b hh ih =>
    intro hb
    have h2 := ih hb
    cases evs with
    | nil => simp at h2
    | cons x xs => rw [List.getLast?_cons_cons]; exact h2
  | casWin => intro _; decide
  | casLose evs b hh ih =>
    intro hb
    have h2 := ih hb
    cases evs with
    | nil => simp at h2
    | cons x xs =>
      rw [List.getLast?_cons_cons, List.getLast?_cons_cons]
      exact h2

/-- C4: `SpinLock::lock` follows the specified test-and-test-and-set loop:
for every environment behavior and fuel the loop body emits a trace allowed
by the spec's algorithm — relaxed spin loads while the flag reads true, a
CAS from false to true with acquire ordering on success and relaxed on
failure attempted right after a false read, return to the spin after a
failed CAS — and when `lock` returns it does so exactly at its own
successful CAS setting the flag to true, which is the final event of the
trace. -/
theorem lock_follows_ttas (orc : Nat → Bool) (fuel idx : Nat) :
    TTASSpec (lockRun orc fuel idx).1 (lockRun orc fuel idx).2 ∧
    ((lockRun orc fuel idx).2 = true →
      (lockRun orc fuel idx).1.getLast? =
        some (AtomicEv.casBool false true MemOrd.acquire MemOrd.relaxed true)) :=
  ⟨lockRun_ttas orc fuel idx, fun hb => ttas_last (lockRun_ttas orc fuel idx) hb⟩

/-- Witness for C4: a run that spins once, then wins the CAS. -/
theorem lock_follows_ttas_witness :
    (lockRun orcW 2 0).1.getLast? =
      some (AtomicEv.casBool false true MemOrd.acquire MemOrd.relaxed true) :=
  (lock_follows_ttas orcW 2 0).2 (by decide)

/-- Against the constant-busy oracle the lock loop only ever spins. -/
theorem lockRun_busy (fuel : Nat) : ∀ idx,
    lockRun busyOracle fuel idx =
      (List.replicate fuel (AtomicEv.load MemOrd.relaxed true), false) := by
  induction fuel with
  | zero => intro idx; rfl
  | succ n ih =>
    intro idx
    simp [lockRun, busyOracle, ih, List.replicate_succ]

/-- C8: `SpinLock::lock` is the only operation that can block: against an
environment that never clears the flag it spins without bound — one relaxed
load per iteration, never acquiring, for every fuel — while the handle
operations and the guard drop are straight-line: their event traces have
constant length (at most 3 events) whatever the state, so they never wait.
`create`, `access`, `SpinLock::new` and the guard dereferences perform no
atomic access at all and are total functions of the model. -/
theorem only_lock_blocks (fuel idx : Nat) (s : ArcState Nat) :
    (lockRun busyOracle fuel idx).1.length = fuel ∧
    (lockRun busyOracle fuel idx).2 = false ∧
    (dropEvents s).length ≤ 3 ∧
    cloneEvents.length = 1 ∧
    guardDropEvents.length = 1 := by
  refine ⟨?_, ?_, ?_, rfl, rfl⟩
  · rw [lockRun_busy fuel idx]
    simp
  · rw [lockRun_busy fuel idx]
  · unfold dropEvents
    split <;> simp

/-! ### Claims about the spinlock state machine -/

/-- C5: the lock starts unlocked after `new`; a successful CAS moves it to
the locked state; the guard drop stores `false` with release ordering,
returning the lock to the unlocked state; acquiring and at once dropping a
guard without mutation leaves `locked = false` with the value untouched, and
the lock can be acquired again — there is no terminal state. -/
theorem spinlock_state_roundtrip {T : Type} (v : T) (s : SpinLock T)
    (h : s.locked = false) :
    (SpinLock.new v).locked = false ∧
    casAcquire s = some { s with locked := true } ∧
    (guardDrop { s with locked := true }).locked = false ∧
    guardDrop { s with locked := true } = s ∧
    guardDeref (guardDrop { s with locked := true }) = s.data ∧
    (casAcquire (guardDrop { s with locked := true })).isSome = true ∧
    guardDropEvents = [AtomicEv.store MemOrd.release false] := by
  obtain ⟨l, d⟩ := s
  simp only at h
  subst h
  exact ⟨rfl, rfl, rfl, rfl, rfl, rfl, rfl⟩

/-- Witness for C5 on a fresh integer lock. -/
theorem spinlock_state_roundtrip_witness :
    casAcquire (SpinLock.new (0 : Int)) =
      some { SpinLock.new (0 : Int) with locked := true } :=
  (spinlock_state_roundtrip 0 (SpinLock.new 0) rfl).2.1

/-- C9: sequential read-back through the guard: the first guard of a lock
built by `new v` dereferences to `v`; a write through the guard persists, so
after the guard is dropped the next acquisition reads the written value; in
particular after `new 42`, adding 1 through the guard (i32 addition) and
dropping the guard, the next acquisition reads 43. -/
theorem guard_sequential_readback (v w : Int) :
    (casAcquire (SpinLock.new v)).map guardDeref = some v ∧
    (casAcquire (guardDrop (guardWrite { locked := true, data := v } w))).map
      guardDeref = some w ∧
    ((casAcquire (SpinLock.new 42)).bind fun g =>
      (casAcquire (guardDrop (guardWrite g (wrap32 (guardDeref g + 1))))).map
        guardDeref) = some 43 := by
  refine ⟨rfl, rfl, by decide⟩

/-! ### The guarded counter under contention -/

/-- Wrapping is idempotent across addition: re-wrapping a wrapped value plus
one agrees with wrapping the unbounded sum. -/
theorem wrap32_add_one (x : Int) : wrap32 (wrap32 x + 1) = wrap32 (x + 1) := by
  unfold wrap32
  have h1 : (x + 2147483648) % 4294967296 - 2147483648 + 1 + 2147483648 =
      (x + 2147483648) % 4294967296 + 1 := by ring
  rw [h1, Int.emod_add_emod]
  have h2 : x + 2147483648 + 1 = x + 1 + 2147483648 := by ring
  rw [h2]

/-- In-range values are unchanged by wrapping. -/
theorem wrap32_small (x : Int) (h0 : 0 ≤ x) (h1 : x < 2147483648) :
    wrap32 x = x := by
  unfold wrap32
  rw [Int.emod_eq_of_lt (by omega) (by omega)]
  omega

/-- Updating one thread changes the progress sum by the difference at that
thread. -/
theorem sum_update_prog {n : Nat} (k : Nat) (f : Fin n → TState) (i : Fin n)
    (t : TState) :
    (Finset.univ.sum fun j => ((prog k (Function.update f i t j) : Nat) : Int)) =
      (Finset.univ.sum fun j => ((prog k (f j) : Nat) : Int)) +
        (prog k t : Int) - (prog k (f i) : Int) := by
  have hmem : i ∈ (Finset.univ : Finset (Fin n)) := Finset.mem_univ i
  rw [← Finset.add_sum_erase _
      (fun j => ((prog k (Function.update f i t j) : Nat) : Int)) hmem,
    ← Finset.add_sum_erase _ (fun j => ((prog k (f j) : Nat) : Int)) hmem]
  have he : ∀ j ∈ Finset.univ.erase i,
      ((prog k (Function.update f i t j) : Nat) : Int) =
        ((prog k (f j) : Nat) : Int) := by
    intro j hj
    rw [Function.update_apply, if_neg (Finset.mem_erase.mp hj).1]
  rw [Finset.sum_congr rfl he, Function.update_apply, if_pos rfl]
  ring

/-- The invariant holds at the starting state. -/
theorem initSys_inv (n k : Nat) : SysInv k (initSys n k) := by
  refine ⟨fun i => Nat.le_refl k, fun i hne => absurd rfl hne,
    fun i j hi _ => absurd rfl hi, fun _ i => rfl, fun i r hr => ?_, ?_⟩
  · cases hr
  · show (0 : Int) = wrap32 (Finset.univ.sum fun i =>
      ((prog k ((initSys n k).threads i) : Nat) : Int))
    have hz : ∀ i : Fin n, ((prog k ((initSys n k).threads i) : Nat) : Int) = 0 := by
      intro i
      show ((prog k ⟨k, TPhase.idle⟩ : Nat) : Int) = 0
      simp [prog]
    rw [Finset.sum_congr rfl fun i _ => hz i, Finset.sum_const, smul_zero]
    decide

/-- Every interleaved step preserves the invariant. -/
theorem step_inv {n : Nat} (k : Nat) {s s2 : Sys n} (hst : Step s s2)
    (h : SysInv k s) : SysInv k s2 := by
  obtain ⟨h1, h2, h3, h4, h5, h6⟩ := h
  cases hst with
  | acquire i hidle hrem hlock =>
    have hall := h4 hlock
    refine ⟨?_, ?_, ?_, ?_, ?_, ?_⟩
    · intro j
      by_cases hj : j = i
      · subst hj
        simp only [Function.update_same]
        exact h1 j
      · simp only [Function.update_noteq hj]
        exact h1 j
    · intro j hne
      by_cases hj : j = i
      · subst hj
        simp only [Function.update_same]
        exact hrem
      · simp only [Function.update_noteq hj] at hne ⊢
        exact h2 j hne
    · intro j j2 hja hjb
      by_cases hj : j = i
      · by_cases hj2 : j2 = i
        · rw [hj, hj2]
        · exfalso
          simp only [Function.update_noteq hj2] at hjb
          exact hjb (hall j2)
      · exfalso
        simp only [Function.update_noteq hj] at hja
        exact hja (hall j)
    · intro hfalse
      simp at hfalse
    · intro j r hph
      by_cases hj : j = i
      · subst hj
        simp only [Function.update_same] at hph
        simp at hph
      · simp only [Function.update_noteq hj] at hph
        exfalso
        have hjidle := hall j
        rw [hjidle] at hph
        cases hph
    · show s.data = wrap32 (Finset.univ.sum fun j => ((prog k
        (Function.update s.threads i ⟨(s.threads i).remaining, TPhase.locked⟩ j) : Nat) : Int))
      rw [sum_update_prog]
      have hpe : prog k ⟨(s.threads i).remaining, TPhase.locked⟩ =
          prog k (s.threads i) := by
        simp [prog, hidle]
      rw [hpe]
      simp only [add_sub_cancel_right]
      exact h6
  | read i hph =>
    refine ⟨?_, ?_, ?_, ?_, ?_, ?_⟩
    · intro j
      by_cases hj : j = i
      · subst hj
        simp only [Function.update_same]
        exact h1 j
      · simp only [Function.update_noteq hj]
        exact h1 j
    · intro j hne
      by_cases hj : j = i
      · subst hj
        simp only [Function.update_same]
        exact h2 j (by rw [hph]; simp)
      · simp only [Function.update_noteq hj] at hne ⊢
        exact h2 j hne
    · intro j j2 hja hjb
      have hni : (s.threads i).phase ≠ TPhase.idle := by rw [hph]; simp
      by_cases hj : j = i
      · by_cases hj2 : j2 = i
        · rw [hj, hj2]
        · simp only [Function.update_noteq hj2] at hjb
          rw [hj]
          exact h3 i j2 hni hjb
      · simp only [Function.update_noteq hj] at hja
        by_cases hj2 : j2 = i
        · rw [hj2]
          exact h3 j i hja hni
        · simp only [Function.update_noteq hj2] at hjb
          exact h3 j j2 hja hjb
    · intro hl0 j
      exfalso
      have hidle := h4 hl0 i
      rw [hidle] at hph
      cases hph
    · intro j r hr
      by_cases hj : j = i
      · subst hj
        simp only [Function.update_same] at hr
        injection hr with hr2
        exact hr2.symm
      · simp only [Function.update_noteq hj] at hr
        exact h5 j r hr
    · show s.data = wrap32 (Finset.univ.sum fun j => ((prog k
        (Function.update s.threads i ⟨(s.threads i).remaining, TPhase.loaded s.data⟩ j) : Nat) : Int))
      rw [sum_update_prog]
      have hpe : prog k ⟨(s.threads i).remaining, TPhase.loaded s.data⟩ =
          prog k (s.threads i) := by
        simp [prog, hph]
      rw [hpe]
      simp only [add_sub_cancel_right]
      exact h6
  | write i r hph =>
    have hni : (s.threads i).phase ≠ TPhase.idle := by rw [hph]; simp
    refine ⟨?_, ?_, ?_, ?_, ?_, ?_⟩
    · intro j
      by_cases hj : j = i
      · subst hj
        simp only [Function.update_same]
        exact h1 j
      · simp only [Function.update_noteq hj]
        exact h1 j
    · intro j hne
      by_cases hj : j = i
      · subst hj
        simp only [Function.update_same]
        exact h2 j hni
      · simp only [Function.update_noteq hj] at hne ⊢
        exact h2 j hne
    · intro j j2 hja hjb
      by_cases hj : j = i
      · by_cases hj2 : j2 = i
        · rw [hj, hj2]
        · simp only [Function.update_noteq hj2] at hjb
          rw [hj]
          exact h3 i j2 hni hjb
      · simp only [Function.update_noteq hj] at hja
        by_cases hj2 : j2 = i
        · rw [hj2]
          exact h3 j i hja hni
        · simp only [Function.update_noteq hj2] at hjb
          exact h3 j j2 hja hjb
    · intro hl0 j
      exfalso
      have hidle := h4 hl0 i
      rw [hidle] at hph
      cases hph
    · intro j r2 hr
      by_cases hj : j = i
      · subst hj
        simp only [Function.update_same] at hr
        simp at hr
      · simp only [Function.update_noteq hj] at hr
        exfalso
        exact hj (h3 j i (by rw [hr]; simp) hni)
    · show wrap32 (r + 1) = wrap32 (Finset.univ.sum fun j => ((prog k
        (Function.update s.threads i ⟨(s.threads i).remaining, TPhase.stored⟩ j) : Nat) : Int))
      rw [sum_update_prog]
      have hpi : prog k (s.threads i) = k - (s.threads i).remaining := by
        simp [prog, hph]
      have hpt : prog k ⟨(s.threads i).remaining, TPhase.stored⟩ =
          (k - (s.threads i).remaining) + 1 := by
        simp [prog]
      rw [hpi, hpt]
      have hr2 : r = wrap32 (Finset.univ.sum fun j =>
          ((prog k (s.threads j) : Nat) : Int)) := by
        rw [h5 i r hph]
        exact h6
      rw [hr2, wrap32_add_one]
      congr 1
      push_cast
      ring
  | unlock i hph =>
    have hni : (s.threads i).phase ≠ TPhase.idle := by rw [hph]; simp
    refine ⟨?_, ?_, ?_, ?_, ?_, ?_⟩
    · intro j
      by_cases hj : j = i
      · subst hj
        simp only [Function.update_same]
        have := h1 j
        omega
      · simp only [Function.update_noteq hj]
        exact h1 j
    · intro j hne
      by_cases hj : j = i
      · subst hj
        simp only [Function.update_same] at hne
        simp at hne
      · simp only [Function.update_noteq hj] at hne ⊢
        exact h2 j hne
    · intro j j2 hja hjb
      by_cases hj : j = i
      · subst hj
        simp only [Function.update_same] at hja
        simp at hja
      · simp only [Function.update_noteq hj] at hja
        by_cases hj2 : j2 = i
        · subst hj2
          simp only [Function.update_same] at hjb
          simp at hjb
        · simp only [Function.update_noteq hj2] at hjb
          exact h3 j j2 hja hjb
    · intro _ j
      by_cases hj : j = i
      · subst hj
        simp only [Function.update_same]
      · simp only [Function.update_noteq hj]
        by_contra hcon
        exact hj (h3 j i hcon hni)
    · intro j r hr
      by_cases hj : j = i
      · subst hj
        simp only [Function.update_same] at hr
        simp at hr
      · simp only [Function.update_noteq hj] at hr
        exfalso
        exact hj (h3 j i (by rw [hr]; simp) hni)
    · show s.data = wrap32 (Finset.univ.sum fun j => ((prog k
        (Function.update s.threads i ⟨(s.threads i).remaining - 1, TPhase.idle⟩ j) : Nat) : Int))
      rw [sum_update_prog]
      have hrem : 0 < (s.threads i).remaining := h2 i hni
      have hbound := h1 i
      have hpi : prog k (s.threads i) = (k - (s.threads i).remaining) + 1 := by
        simp [prog, hph]
      have hpt : prog k ⟨(s.threads i).remaining - 1, TPhase.idle⟩ =
          (k - (s.threads i).remaining) + 1 := by
        simp [prog]
        omega
      rw [hpi, hpt]
      simp only [add_sub_cancel_right]
      exact h6

/-- Every reachable state satisfies the invariant. -/
theorem reach_inv {n : Nat} {k : Nat} {s : Sys n} (h : Reach (initSys n k) s) :
    SysInv k s := by
  unfold Reach at h
  induction h with
  | refl => exact initSys_inv n k
  | tail hab hbc ih => exact step_inv k hbc ih

/-- C3 (amended): mutual exclusion holds — for T threads of K guarded
increments each, every complete interleaving ends with the counter equal to
the two's-complement 32-bit reduction of T * K; in particular the counter
equals T * K exactly (including T = 0 or K = 0 giving 0) whenever
T * K < 2^31, the range where the i32 counter cannot wrap. -/
theorem spinlock_mutual_exclusion_count (t k : Nat) (s : Sys t)
    (hr : Reach (initSys t k) s) (hf : finalSys s) :
    s.data = wrap32 ((t * k : Nat)) ∧
    ((t * k : Nat) < 2147483648 → s.data = ((t * k : Nat) : Int)) := by
  have hinv := reach_inv hr
  obtain ⟨_, _, _, _, _, h6⟩ := hinv
  have hsum : (Finset.univ.sum fun i => ((prog k (s.threads i) : Nat) : Int)) =
      ((t * k : Nat) : Int) := by
    have he : ∀ i : Fin t, ((prog k (s.threads i) : Nat) : Int) = (k : Int) := by
      intro i
      simp [prog, (hf i).1, (hf i).2]
    rw [Finset.sum_congr rfl fun i _ => he i, Finset.sum_const,
      Finset.card_univ, Fintype.card_fin, nsmul_eq_mul]
    push_cast
    ring
  constructor
  · rw [h6, hsum]
  · intro hlt
    have h0 : (0 : Int) ≤ ((t * k : Nat) : Int) := by positivity
    have hlt2 : ((t * k : Nat) : Int) < 2147483648 := by exact_mod_cast hlt
    rw [h6, hsum, wrap32_small _ h0 hlt2]

/-- On one-element index types an update replaces the whole function. -/
theorem update_fin1 (f : Fin 1 → TState) (i : Fin 1) (t : TState) :
    Function.update f i t = fun _ => t := by
  funext j
  have h1 := j.isLt
  have h2 := i.isLt
  have hj : j = i := Fin.ext (by omega)
  rw [hj, Function.update_same]

/-- One full sequential lock / increment / unlock cycle of the single
thread. -/
theorem seq_cycle (k j : Nat) (hj : j < k) :
    Reach (midSeq k j) (midSeq k (j + 1)) := by
  have hrem : 0 < ((midSeq k j).threads 0).remaining := by
    show 0 < k - j
    omega
  have st1 : Step (midSeq k j) { locked := true, data := wrap32 (j : Int), threads := fun _ => ⟨k - j, TPhase.locked⟩ } := by
    have h := Step.acquire (midSeq k j) 0 rfl hrem rfl
    rw [update_fin1] at h
    exact h
  have st2 : Step ({ locked := true, data := wrap32 (j : Int), threads := fun _ => ⟨k - j, TPhase.locked⟩ } : Sys 1) { locked := true, data := wrap32 (j : Int), threads := fun _ => ⟨k - j, TPhase.loaded (wrap32 (j : Int))⟩ } := by
    have h := Step.read ({ locked := true, data := wrap32 (j : Int), threads := fun _ => ⟨k - j, TPhase.locked⟩ } : Sys 1) 0 rfl
    rw [update_fin1] at h
    exact h
  have st3 : Step ({ locked := true, data := wrap32 (j : Int), threads := fun _ => ⟨k - j, TPhase.loaded (wrap32 (j : Int))⟩ } : Sys 1) { locked := true, data := wrap32 (wrap32 (j : Int) + 1), threads := fun _ => ⟨k - j, TPhase.stored⟩ } := by
    have h := Step.write ({ locked := true, data := wrap32 (j : Int), threads := fun _ => ⟨k - j, TPhase.loaded (wrap32 (j : Int))⟩ } : Sys 1) 0 (wrap32 (j : Int)) rfl
    rw [update_fin1] at h
    exact h
  have st4 : Step ({ locked := true, data := wrap32 (wrap32 (j : Int) + 1), threads := fun _ => ⟨k - j, TPhase.stored⟩ } : Sys 1) { locked := false, data := wrap32 (wrap32 (j : Int) + 1), threads := fun _ => ⟨k - j - 1, TPhase.idle⟩ } := by
    have h := Step.unlock ({ locked := true, data := wrap32 (wrap32 (j : Int) + 1), threads := fun _ => ⟨k - j, TPhase.stored⟩ } : Sys 1) 0 rfl
    rw [update_fin1] at h
    exact h
  have hD : ({ locked := false, data := wrap32 (wrap32 (j : Int) + 1), threads := fun _ => ⟨k - j - 1, TPhase.idle⟩ } : Sys 1) = midSeq k (j + 1) := by
    unfold midSeq
    have hd1 : wrap32 (wrap32 (j : Int) + 1) = wrap32 ((j + 1 : Nat) : Int) := by
      rw [wrap32_add_one]
      norm_num
    have hd2 : k - j - 1 = k - (j + 1) := by omega
    rw [hd1, hd2]
  exact Relation.ReflTransGen.head st1 (Relation.ReflTransGen.head st2
    (Relation.ReflTransGen.head st3 (Relation.ReflTransGen.head (hD ▸ st4)
      Relation.ReflTransGen.refl)))

/-- The single-thread sequential run reaches each cycle count up to its
quota. -/
theorem seq_reach (k : Nat) : ∀ (j : Nat), j ≤ k →
    Reach (initSys 1 k) (midSeq k j) := by
  intro j
  induction j with
  | zero =>
    intro _
    have hd : wrap32 ((0 : Nat) : Int) = 0 := by decide
    have ht : (fun _ : Fin 1 => (⟨k - 0, TPhase.idle⟩ : TState)) =
        fun _ : Fin 1 => (⟨k, TPhase.idle⟩ : TState) := by
      funext j2
      simp
    have h0 : midSeq k 0 = initSys 1 k := by
      unfold midSeq initSys
      rw [hd, ht]
    rw [h0]
    exact Relation.ReflTransGen.refl
  | succ j2 ih =>
    intro hle
    exact Relation.ReflTransGen.trans (ih (by omega)) (seq_cycle k j2 (by omega))

/-- Witness for C3 at one thread and one increment: the completed sequential
run reads counter value 1. -/
theorem spinlock_mutual_exclusion_count_witness :
    (midSeq 1 1).data = wrap32 ((1 * 1 : Nat)) ∧
    ((1 * 1 : Nat) < 2147483648 → (midSeq 1 1).data = ((1 * 1 : Nat) : Int)) :=
  spinlock_mutual_exclusion_count 1 1 (midSeq 1 1)
    (seq_reach 1 1 (Nat.le_refl 1)) (fun _ => ⟨rfl, rfl⟩)

/-- Counterexample for C3 as stated: with one thread and 2^31 increments the
i32 counter wraps, so the completed run ends at -2^31, not at T * K = 2^31
(a debug build would instead abort on the overflowing add — either way the
stated equality fails at this input). -/
theorem spinlock_counter_claim_false :
    ¬ (∀ (t k : Nat) (s : Sys t), Reach (initSys t k) s → finalSys s →
        s.data = ((t * k : Nat) : Int)) := by
  intro hall
  have hfin : finalSys (midSeq 2147483648 2147483648) := by
    intro i
    refine ⟨rfl, ?_⟩
    show 2147483648 - 2147483648 = 0
    exact Nat.sub_self 2147483648
  have h := hall 1 2147483648 (midSeq 2147483648 2147483648)
    (seq_reach 2147483648 2147483648 (Nat.le_refl 2147483648)) hfin
  have hd : (midSeq 2147483648 2147483648).data =
      wrap32 ((2147483648 : Nat) : Int) := rfl
  rw [hd] at h
  exact absurd h (by decide)

end RustConc
